import Mathlib

/-
Shallow embedding of the rag-system chunking and context-budgeting engine
(src/tools/chunk_splitter.py and src/tools/query_rag.py).

Modelling conventions:
- Python `str` values are modelled as `List Char`; `String` is used only for
  hex digests (the output of `compute_hash`).
- Python `int` is modelled as `Int` where negative values are reachable
  (configuration knobs) and as `Nat` where the source only ever produces
  non-negative values (word counts, token estimates, ord counters).
- `int(words * 1.3)` is modelled as `13 * words / 10` in `Nat`: for every
  word count `w` in the reachable range, the Python float expression
  `int(w * 1.3)` equals `floor(13 * w / 10)`, because the IEEE double nearest
  to 1.3 is strictly greater than 13/10, so the rounded product never falls
  below the exact rational value, and it stays well below the next integer.
- `hashlib.sha256(...).hexdigest()` is embedded as an executable SHA-256
  (FIPS 180-4) over the UTF-8 encoding; the round constants are derived from
  the fractional parts of the roots of the first primes, exactly as the
  standard defines them.
-/

namespace RagSystem

/-- Whitespace as recognised by Python's argument-less `str.split` and
`str.strip` on ASCII text: space, tab, newline, carriage return, vertical
tab, form feed. -/
def isWs (c : Char) : Bool :=
  c = ' ' || c = '\t' || c = '\n' || c = '\r' || c = Char.ofNat 11 || c = Char.ofNat 12

/-- The characters of a string literal (used to write concrete inputs). -/
def str (s : String) : List Char := s.data

/-- Word counter: `wcAux inWord l` counts the maximal whitespace-free runs in
`l`, given that a run is already in progress when `inWord` is true. A word is
counted at its first character. -/
def wcAux : Bool → List Char → Nat
  | _, [] => 0
  | inw, c :: rest =>
    if isWs c then wcAux false rest
    else (if inw then 0 else 1) + wcAux true rest

/-- `len(text.split())`: the number of whitespace-delimited words. -/
def wordsCount (l : List Char) : Nat := wcAux false l

/-- `ChunkSplitter.estimate_tokens`: `int(len(text.split()) * 1.3)`. -/
def estimate_tokens (l : List Char) : Nat := 13 * wordsCount l / 10

/-- Python `text.strip()`: remove leading and trailing whitespace. -/
def pyStrip (l : List Char) : List Char :=
  ((l.dropWhile isWs).reverse.dropWhile isWs).reverse

/-- `re.split(r'\n\n+', text)`: split on each maximal run of two or more
newlines (the regex is greedy, so a run of `k ≥ 2` newlines is consumed
whole). `cur` is the reversed accumulator of the current piece.  The `fuel`
argument only makes the recursion structural (each step consumes at least
one character, so a fuel of the text's length never runs out); the kernel
can then evaluate the definition. -/
def splitParasFuel : Nat → List Char → List Char → List (List Char)
  | _, [], cur => [cur.reverse]
  | 0, l, cur => [cur.reverse ++ l]
  | fuel + 1, '\n' :: '\n' :: rest, cur =>
    cur.reverse :: splitParasFuel fuel (rest.dropWhile (· == '\n')) []
  | fuel + 1, c :: rest, cur => splitParasFuel fuel rest (c :: cur)

/-- `re.split(r'\n\n+', text)` over a whole text. -/
def splitParas (l : List Char) : List (List Char) := splitParasFuel l.length l []

/-! ## SHA-256 (FIPS 180-4), executable, over byte lists -/

/-- `2^32`. -/
def M32 : Nat := 4294967296

/-- Right rotation of a 32-bit word. -/
def rotr (n x : Nat) : Nat := ((x >>> n) ||| (x <<< (32 - n))) % M32

def bsig0 (x : Nat) : Nat := rotr 2 x ^^^ rotr 13 x ^^^ rotr 22 x

def bsig1 (x : Nat) : Nat := rotr 6 x ^^^ rotr 11 x ^^^ rotr 25 x

def ssig0 (x : Nat) : Nat := rotr 7 x ^^^ rotr 18 x ^^^ (x >>> 3)

def ssig1 (x : Nat) : Nat := rotr 17 x ^^^ rotr 19 x ^^^ (x >>> 10)

/-- Primality by trial division (used only to generate the SHA-256
constants from their FIPS 180-4 definition). -/
def isPrimeB (n : Nat) : Bool :=
  2 ≤ n && ((List.range n).drop 2).all (fun d => n % d != 0)

/-- The first `k` primes. -/
def firstPrimes (k : Nat) : List Nat := ((List.range 400).filter isPrimeB).take k

/-- Bisection step for integer roots, with invariant `lo^e ≤ n < hi^e`. -/
def rootAux (e n : Nat) : Nat → Nat → Nat → Nat
  | 0, lo, _ => lo
  | fuel + 1, lo, hi =>
    let m := (lo + hi) / 2
    if m ≤ lo then lo
    else if m ^ e ≤ n then rootAux e n fuel m hi else rootAux e n fuel lo m

/-- `⌊n^(1/e)⌋` by bisection. -/
def iroot (e n : Nat) : Nat := rootAux e n 128 0 (n + 2)

/-- Round constants: the first 32 bits of the fractional parts of the cube
roots of the first 64 primes. -/
def K256 : List Nat := (firstPrimes 64).map (fun p => iroot 3 (p * 2 ^ 96) % M32)

/-- Initial hash state: the first 32 bits of the fractional parts of the
square roots of the first 8 primes. -/
def IV256 : List Nat := (firstPrimes 8).map (fun p => iroot 2 (p * 2 ^ 64) % M32)

/-- UTF-8 encoding of one code point, as byte values. -/
def utf8Bytes1 (c : Char) : List Nat :=
  let n := c.toNat
  if n < 128 then [n]
  else if n < 2048 then [192 + n / 64, 128 + n % 64]
  else if n < 65536 then [224 + n / 4096, 128 + n / 64 % 64, 128 + n % 64]
  else [240 + n / 262144, 128 + n / 4096 % 64, 128 + n / 64 % 64, 128 + n % 64]

/-- UTF-8 encoding of a text, as byte values (`text.encode('utf-8')`). -/
def utf8Encode (l : List Char) : List Nat := (l.map utf8Bytes1).flatten

/-- SHA-256 padding: append `0x80`, zero bytes up to 56 mod 64, then the
bit length as 8 big-endian bytes. -/
def sha256Pad (msg : List Nat) : List Nat :=
  let l := msg.length
  let k := (120 - (l + 1) % 64) % 64
  msg ++ [128] ++ List.replicate k 0
      ++ (List.range 8).map (fun i => ((8 * l) >>> (56 - 8 * i)) % 256)

/-- A big-endian word from bytes. -/
def beWord (bs : List Nat) : Nat := bs.foldl (fun a b => a * 256 + b) 0

/-- The sixteen 32-bit big-endian words of block `bi` of a padded message. -/
def blockWords (padded : List Nat) (bi : Nat) : List Nat :=
  (List.range 16).map (fun j => beWord ((padded.drop (64 * bi + 4 * j)).take 4))

/-- Message schedule: extend 16 words to 64. -/
def extendSchedule (ws : List Nat) : List Nat :=
  (List.range 48).foldl
    (fun acc _ =>
      let n := acc.length
      let w := (ssig1 (acc.getD (n - 2) 0) + acc.getD (n - 7) 0
                + ssig0 (acc.getD (n - 15) 0) + acc.getD (n - 16) 0) % M32
      acc ++ [w])
    ws

/-- The eight working variables of the compression loop. -/
structure Sha8 where
  a : Nat
  b : Nat
  c : Nat
  d : Nat
  e : Nat
  f : Nat
  g : Nat
  h : Nat

/-- Compress one 512-bit block into the running hash state. -/
def compressBlock (hs ws : List Nat) : List Nat :=
  let w64 := extendSchedule ws
  let init : Sha8 :=
    ⟨hs.getD 0 0, hs.getD 1 0, hs.getD 2 0, hs.getD 3 0,
     hs.getD 4 0, hs.getD 5 0, hs.getD 6 0, hs.getD 7 0⟩
  let fin := (List.zip K256 w64).foldl
    (fun s kw =>
      let ch := (s.e &&& s.f) ^^^ (((M32 - 1) ^^^ s.e) &&& s.g)
      let maj := (s.a &&& s.b) ^^^ (s.a &&& s.c) ^^^ (s.b &&& s.c)
      let t1 := (s.h + bsig1 s.e + ch + kw.1 + kw.2) % M32
      let t2 := (bsig0 s.a + maj) % M32
      ⟨(t1 + t2) % M32, s.a, s.b, s.c, (s.d + t1) % M32, s.e, s.f, s.g⟩)
    init
  [(hs.getD 0 0 + fin.a) % M32, (hs.getD 1 0 + fin.b) % M32,
   (hs.getD 2 0 + fin.c) % M32, (hs.getD 3 0 + fin.d) % M32,
   (hs.getD 4 0 + fin.e) % M32, (hs.getD 5 0 + fin.f) % M32,
   (hs.getD 6 0 + fin.g) % M32, (hs.getD 7 0 + fin.h) % M32]

/-- SHA-256 digest of a byte list, as eight 32-bit words. -/
def sha256Digest (msg : List Nat) : List Nat :=
  let padded := sha256Pad msg
  (List.range (padded.length / 64)).foldl
    (fun hs bi => compressBlock hs (blockWords padded bi)) IV256

/-- A hex digit character. -/
def hexDigit (d : Nat) : Char :=
  if d < 10 then Char.ofNat (48 + d) else Char.ofNat (87 + d)

/-- Lowercase hex of a 32-bit word, 8 digits. -/
def wordHex (w : Nat) : List Char :=
  (List.range 8).map (fun i => hexDigit ((w >>> (28 - 4 * i)) % 16))

/-- SHA-256 lowercase hex digest of a byte list. -/
def sha256Hex (msg : List Nat) : String :=
  String.mk (((sha256Digest msg).map wordHex).flatten)

/-- `ChunkSplitter.compute_hash`: `hashlib.sha256(text.encode('utf-8')).hexdigest()`. -/
def compute_hash (text : List Char) : String := sha256Hex (utf8Encode text)

/-! ## Data model (chunk_splitter.py) -/

/-- `ChunkSplitter.__init__` (lines 62-78): the three configuration knobs.
The constructor performs no validation; it stores the arguments unchanged. -/
structure ChunkSplitter where
  max_chunk_tokens : Int
  min_chunk_tokens : Int
  overlap_tokens : Int
deriving DecidableEq

/-- `ChunkSplitter(max_chunk_tokens, min_chunk_tokens, overlap_tokens)`. -/
def mkChunkSplitter (mx mn ov : Int) : ChunkSplitter := ⟨mx, mn, ov⟩

/-- `ChunkSplitter()` with the Python default arguments. -/
def defaultSplitter : ChunkSplitter := ⟨500, 50, 50⟩

/-- The metadata dictionary attached to message-derived chunks (the only
producer of `metadata` in the source); `sub_chunk` is present only on
sub-chunks of an oversized message. -/
structure MsgMeta where
  session_id : Int
  message_step : Int
  message_role : List Char
  sub_chunk : Option Nat
deriving DecidableEq

/-- The `Chunk` dataclass (lines 40-56). -/
structure Chunk where
  heading : Option (List Char)
  text : List Char
  ord : Nat
  kind : List Char
  token_est : Nat
  hash : Option String
  metadata : Option MsgMeta
deriving DecidableEq

/-- The head of a chunk list, with an inert placeholder for the empty case
(used only to state concrete facts about lists known to be non-empty). -/
def chunk0 (cs : List Chunk) : Chunk := cs.headD ⟨none, [], 0, [], 0, none, none⟩

/-! ## The splitters -/

/-- The paragraph-accumulation loop, written once: the loop bodies at lines
170-201 (inside `split_markdown`, seeded with `"{level} {heading}\n\n"`) and
lines 236-267 (`split_plaintext`, seeded with `""`) are textually identical
up to the seed, the `heading` field and the `kind` tag.  State: `buf` is
`current_chunk`, `tok` is `current_tokens`, `ordc` is `ord_counter`.  Returns
the emitted chunks and the final `ord_counter`. -/
def accumLoop (sp : ChunkSplitter) (heading : Option (List Char)) (kind : List Char) :
    List (List Char) → List Char → Nat → Nat → List Chunk × Nat
  | [], buf, _tok, ordc =>
    if pyStrip buf ≠ [] then
      ([⟨heading, pyStrip buf, ordc, kind, estimate_tokens buf, some (compute_hash buf), none⟩],
       ordc + 1)
    else ([], ordc)
  | para :: rest, buf, tok, ordc =>
    let pt := estimate_tokens para
    if (tok : Int) + pt > sp.max_chunk_tokens then
      if pyStrip buf ≠ [] then
        let r := accumLoop sp heading kind rest (para ++ ['\n', '\n']) pt (ordc + 1)
        (⟨heading, pyStrip buf, ordc, kind, estimate_tokens buf, some (compute_hash buf), none⟩
          :: r.1, r.2)
      else accumLoop sp heading kind rest (para ++ ['\n', '\n']) pt ordc
    else accumLoop sp heading kind rest (buf ++ para ++ ['\n', '\n']) (tok + pt) ordc

/-- `ChunkSplitter.split_plaintext` (lines 218-269). -/
def split_plaintext (sp : ChunkSplitter) (text : List Char) (kind : List Char) : List Chunk :=
  (accumLoop sp none kind (splitParas text) [] 0 0).1

/-- Split into lines at `'\n'` (separators dropped; `n` newlines give `n+1`
lines). -/
def splitLines : List Char → List Char → List (List Char)
  | [], cur => [cur.reverse]
  | '\n' :: rest, cur => cur.reverse :: splitLines rest []
  | c :: rest, cur => splitLines rest (c :: cur)

/-- Does a line match `header_pattern = r'^(#{2,3})\s+(.+)$'` (line 127)?
Returns the level marker and the heading group.  The run of `#` must have
length exactly 2 or 3; then the greedy `\s+` takes the maximal whitespace run
and `(.+)` the non-empty remainder - except that when the remainder after all
whitespace is empty, the regex engine backtracks and `(.+)` captures the last
whitespace character (possible only when the `#` run is followed by two or
more whitespace characters and nothing else).  Approximation scope: the
Python `\s+` can also consume newlines, so a marker run at the end of a line
(e.g. `"##\nfoo"`) can match with its heading taken from a later line; this
line-by-line scanner treats such a run as body text instead.  The universal
markdown theorems are proved over `markdownFromSections` for arbitrary
section lists and do not depend on this corner; the concrete inputs used in
counterexamples and witnesses keep marker, whitespace and heading on one
line, where the scanner and the regex agree. -/
def parseHeader (line : List Char) : Option (List Char × List Char) :=
  let hashes := line.takeWhile (· == '#')
  let tail := line.drop hashes.length
  if hashes.length = 2 ∨ hashes.length = 3 then
    match tail with
    | [] => none
    | c :: cs =>
      if isWs c then
        let rest := tail.dropWhile isWs
        if rest ≠ [] then some (hashes, rest)
        else if cs ≠ [] then some (hashes, [tail.getLastD c])
        else none
      else none
  else none

/-- Rejoin the body lines following a header line; the regex match for a
header ends just before its newline, so each body line re-enters the content
preceded by its newline. -/
def joinBodyLines (ls : List (List Char)) : List Char :=
  (ls.map (fun l => '\n' :: l)).flatten

/-- Scan lines from a header line onward, pairing each header with its raw
trailing content (up to the next header line).  The `fuel` argument only
makes the recursion structural (each step consumes at least one line, so a
fuel of the number of lines never runs out). -/
def sectionScanFuel : Nat → List (List Char) → List (List Char × List Char × List Char)
  | _, [] => []
  | 0, _ => []
  | fuel + 1, line :: rest =>
    match parseHeader line with
    | some lh =>
      let body := rest.takeWhile (fun l => (parseHeader l).isNone)
      (lh.1, lh.2, joinBodyLines body) :: sectionScanFuel fuel (rest.drop body.length)
    | none => sectionScanFuel fuel rest

/-- The line scanner run with enough fuel. -/
def sectionScan (ls : List (List Char)) : List (List Char × List Char × List Char) :=
  sectionScanFuel ls.length ls

/-- `header_pattern.split(markdown)` (line 130), as (pre-content, sections):
the text before the first header line, then one (level, heading, raw content)
triple per header.  The pre-content and the raw contents are reconstructed up
to the newline adjacent to a header line, which `split_markdown` strips away
in every use. -/
def headerSplit (md : List Char) : List Char × List (List Char × List Char × List Char) :=
  let ls := splitLines md []
  let preLines := ls.takeWhile (fun l => (parseHeader l).isNone)
  (List.intercalate ['\n'] preLines, sectionScan (ls.drop preLines.length))

/-- The per-section loop of `split_markdown` (lines 153-214), threading the
document-wide `ord_counter`. -/
def markdownSections (sp : ChunkSplitter) :
    List (List Char × List Char × List Char) → Nat → List Chunk
  | [], _ => []
  | (lvl, hd, rawContent) :: rest, ordc =>
    let content := pyStrip rawContent
    let full_text := lvl ++ [' '] ++ hd ++ ['\n', '\n'] ++ content
    let token_est := estimate_tokens full_text
    if (token_est : Int) > sp.max_chunk_tokens then
      let seed := lvl ++ [' '] ++ hd ++ ['\n', '\n']
      let r := accumLoop sp (some hd) (str "doc") (splitParas content) seed
                 (estimate_tokens seed) ordc
      r.1 ++ markdownSections sp rest r.2
    else
      ⟨some hd, full_text, ordc, str "doc", token_est, some (compute_hash full_text), none⟩
        :: markdownSections sp rest (ordc + 1)

/-- The chunk-emission part of `split_markdown` (lines 125-216), taking the
regex-split result: the optional pre-content chunk, then the sections. -/
def markdownFromSections (sp : ChunkSplitter)
    (pre : List Char) (secs : List (List Char × List Char × List Char)) : List Chunk :=
  let preT := pyStrip pre
  if preT ≠ [] then
    ⟨none, preT, 0, str "doc", estimate_tokens preT, some (compute_hash preT), none⟩
      :: markdownSections sp secs 1
  else markdownSections sp secs 0

/-- `ChunkSplitter.split_markdown` (lines 110-216). -/
def split_markdown (sp : ChunkSplitter) (markdown : List Char) : List Chunk :=
  markdownFromSections sp (headerSplit markdown).1 (headerSplit markdown).2

/-- A message row (step, role, content) from the messages table, already
ordered by step; the database read itself is an external collaborator. -/
structure Msg where
  step : Int
  role : List Char
  content : List Char
deriving DecidableEq

/-- The heading `f"Message {step} ({role})"`. -/
def msgHeading (m : Msg) : List Char :=
  str "Message " ++ (toString m.step).data ++ str " (" ++ m.role ++ str ")"

/-- The per-message loop of `split_session_messages` (lines 320-363).  An
oversized message is delegated to `split_plaintext` and each sub-chunk is
re-numbered with the running counter and given message metadata carrying its
zero-based index within the message. -/
def splitMessagesLoop (sp : ChunkSplitter) (session_id : Int) : List Msg → Nat → List Chunk
  | [], _ => []
  | msg :: rest, ordc =>
    let kind := if msg.role = str "assistant" then str "ai" else str "note"
    let token_est := estimate_tokens msg.content
    if (token_est : Int) > sp.max_chunk_tokens then
      let sub := split_plaintext sp msg.content kind
      let subbed := sub.enum.map (fun ic =>
        ⟨ic.2.heading, ic.2.text, ordc + ic.1, ic.2.kind, ic.2.token_est, ic.2.hash,
         some ⟨session_id, msg.step, msg.role, some ic.1⟩⟩)
      subbed ++ splitMessagesLoop sp session_id rest (ordc + sub.length)
    else
      ⟨some (msgHeading msg), msg.content, ordc, kind, token_est,
       some (compute_hash msg.content), some ⟨session_id, msg.step, msg.role, none⟩⟩
        :: splitMessagesLoop sp session_id rest (ordc + 1)

/-- `ChunkSplitter.split_session_messages` (lines 271-376), over the message
rows the database returned; the session-metadata dictionary it also returns
is external provenance and not modelled. -/
def split_session_messages (sp : ChunkSplitter) (session_id : Int) (msgs : List Msg) :
    List Chunk :=
  splitMessagesLoop sp session_id msgs 0

/-! ## Context budgeting (query_rag.py) -/

/-- A ranked candidate row consumed by `build_rag_context` (produced by the
external FTS search over previously persisted chunks; `token_est` may be NULL
in the database, and is otherwise a stored chunk token estimate). -/
structure RankedChunk where
  chunk_id : Int
  heading : Option (List Char)
  text : List Char
  token_est : Option Nat
  doc_title : List Char
  module : List Char
  source : List Char
deriving DecidableEq

/-- One provenance record of `build_rag_context` (lines 218-224). -/
structure SourceRec where
  chunk_id : Int
  doc_title : List Char
  module : List Char
  heading : Option (List Char)
  source : List Char
deriving DecidableEq

/-- Python `x or default` on an optional string: `None` and `""` are falsy. -/
def orDefaultStr (o : Option (List Char)) (d : List Char) : List Char :=
  match o with
  | none => d
  | some s => if s = [] then d else s

/-- The formatted block `f"## {heading}\n\n{text}\n\n"` (line 215), with
`heading or "(no heading)"`. -/
def fmtBlock (r : RankedChunk) : List Char :=
  str "## " ++ orDefaultStr r.heading (str "(no heading)") ++ ['\n', '\n']
    ++ r.text ++ ['\n', '\n']

/-- The provenance entry recorded for an included candidate. -/
def mkSourceRec (r : RankedChunk) : SourceRec :=
  ⟨r.chunk_id, r.doc_title, r.module, r.heading, r.source⟩

/-- The accumulation loop of `RAGQuery.build_rag_context` (lines 199-228):
`total` is `total_tokens`; `result['token_est'] or 0` maps NULL to 0; the
`break` abandons all later candidates. -/
def buildLoop (max_tokens : Int) : List RankedChunk → Int → List Char × List SourceRec
  | [], _ => ([], [])
  | r :: rest, total =>
    let chunk_tokens : Nat := r.token_est.getD 0
    if total + chunk_tokens > max_tokens then ([], [])
    else
      let t := buildLoop max_tokens rest (total + chunk_tokens)
      (fmtBlock r ++ t.1, mkSourceRec r :: t.2)

/-- `RAGQuery.build_rag_context` applied to the ranked candidate list the
external search returned (the search itself is out of scope). -/
def build_rag_context (max_tokens : Int) (results : List RankedChunk) :
    List Char × List SourceRec :=
  buildLoop max_tokens results 0

/-! ## Specification-side definitions (for statements only) -/

/-- Rebuild an accumulation buffer from its constituent pieces: the loop
appends every piece together with a `"\n\n"` separator (the markdown heading
seed counts as the first piece). -/
def paraJoin (ps : List (List Char)) : List Char :=
  (ps.map (fun p => p ++ ['\n', '\n'])).flatten

/-- What a chunk emitted by the paragraph accumulator is made of: the
non-empty list of pieces whose separator-joined text it trims, estimates and
hashes; a completed buffer either fits the budget as the sum of its pieces'
individual estimates, or is a single piece whose own estimate exceeds it. -/
def accumOk (sp : ChunkSplitter) (c : Chunk) : Prop :=
  ∃ qs : List (List Char), qs ≠ [] ∧
    c.text = pyStrip (paraJoin qs) ∧ c.text ≠ [] ∧
    c.token_est = estimate_tokens (paraJoin qs) ∧
    c.hash = some (compute_hash (paraJoin qs)) ∧
    (((qs.map estimate_tokens).sum : Int) ≤ sp.max_chunk_tokens ∨
      ∃ p, qs = [p] ∧ (estimate_tokens p : Int) > sp.max_chunk_tokens)

/-- The token estimate as the specification words it: the word count
multiplied by the rational 1.3, truncated (floored, as the value is
non-negative) to an integer. -/
def estimateSpecRat (l : List Char) : Nat := ⌊(wordsCount l : ℚ) * 1.3⌋₊

/-- The greedy budget prefix as the specification words it: take candidates
in order while each still fits the remaining budget. -/
def greedyIncluded (mx : Int) : List RankedChunk → List RankedChunk
  | [] => []
  | r :: rest =>
    if (r.token_est.getD 0 : Int) ≤ mx then
      r :: greedyIncluded (mx - r.token_est.getD 0) rest
    else []

/-- The token cost `build_rag_context` charges for a candidate. -/
def candTokens (r : RankedChunk) : Nat := r.token_est.getD 0

/-- Every field of a chunk except `ord` (used to state that the message
splitter only renumbers). -/
def chunkSansOrd (c : Chunk) :
    Option (List Char) × List Char × List Char × Nat × Option String × Option MsgMeta :=
  (c.heading, c.text, c.kind, c.token_est, c.hash, c.metadata)

/-- The chunks one message contributes in isolation (the loop run on the
singleton list, counter starting at 0). -/
def perMessageChunks (sp : ChunkSplitter) (session_id : Int) (m : Msg) : List Chunk :=
  splitMessagesLoop sp session_id [m] 0

/-- What a within-budget markdown section chunk looks like. -/
def sectionChunkOk (sp : ChunkSplitter) (secs : List (List Char × List Char × List Char))
    (c : Chunk) : Prop :=
  ∃ s ∈ secs, c.text = s.1 ++ [' '] ++ s.2.1 ++ ['\n', '\n'] ++ pyStrip s.2.2 ∧
    c.token_est = estimate_tokens c.text ∧ c.hash = some (compute_hash c.text) ∧
    (c.token_est : Int) ≤ sp.max_chunk_tokens

/-- The budget shape of an accumulator chunk, tied to its source pieces:
the chunk's pieces `qs` are a contiguous run of the given source piece list
(`source = pre ++ qs ++ suf`); the chunk's text, estimate and hash are taken
from the separator-join of exactly those pieces, and either `qs` is a single
piece whose own estimate exceeds the budget (kept whole, recorded verbatim),
or the sum of the pieces' own estimates fits the budget and the recorded
estimate overshoots the budget by less than the number of pieces. -/
def budgetOk (sp : ChunkSplitter) (source : List (List Char)) (c : Chunk) : Prop :=
  ∃ pre qs suf, source = pre ++ qs ++ suf ∧ qs ≠ [] ∧
    c.text = pyStrip (paraJoin qs) ∧ c.token_est = estimate_tokens (paraJoin qs) ∧
    ((∃ p, qs = [p] ∧ (estimate_tokens p : Int) > sp.max_chunk_tokens
        ∧ c.text = pyStrip p ∧ c.token_est = estimate_tokens p)
      ∨ (((qs.map estimate_tokens).sum : Int) ≤ sp.max_chunk_tokens
          ∧ (c.token_est : Int) ≤ sp.max_chunk_tokens + ((qs.length - 1 : Nat) : Int)))

/-! ## Concrete instances used by counterexamples and witnesses -/

/-- Two three-word paragraphs (each estimating 3 tokens). -/
def exT1 : List Char := str "a b c\n\na b c"

/-- A ranked candidate with the given id and stored token estimate. -/
def exCand (i : Int) (t : Nat) : RankedChunk :=
  ⟨i, none, str "t", some t, str "d", str "m", str "s"⟩

/-- Candidates with token estimates 100, 150, 300. -/
def exCands : List RankedChunk := [exCand 1 100, exCand 2 150, exCand 3 300]

/-- Three messages of which only the second exceeds a budget of 5. -/
def exMsgs : List Msg :=
  [⟨1, str "user", str "hi"⟩,
   ⟨2, str "assistant", str "a b c d e\n\nf g h i j"⟩,
   ⟨3, str "user", str "bye"⟩]

/-- A markdown section whose first paragraph alone exceeds a budget of 5. -/
def exMd9 : List Char := str "## H\n\nw1 w2 w3 w4 w5 w6 w7 w8 w9 w10"

/-- Plaintext split of `"hello"` with the default configuration. -/
def exPlainHello : List Chunk := split_plaintext defaultSplitter (str "hello") (str "doc")

/-- Message split of a single `"hello"` message with the default configuration. -/
def exMsgHello : List Chunk :=
  split_session_messages defaultSplitter 1 [⟨1, str "user", str "hello"⟩]


/-! ## Word-count and buffer lemmas -/

theorem wcAux_ws_cons (c : Char) (hc : isWs c = true) (b : Bool) (ys : List Char) :
    wcAux b (c :: ys) = wcAux false ys := by
  simp [wcAux, hc]

theorem wcAux_sep (c : Char) (hc : isWs c = true) :
    ∀ (xs : List Char) (b : Bool) (ys : List Char),
      wcAux b (xs ++ c :: ys) = wcAux b xs + wcAux false ys := by
  intro xs
  induction xs with
  | nil => intro b ys; simp [wcAux, hc]
  | cons d ds ih =>
    intro b ys
    by_cases hd : isWs d
    · simp [wcAux, hd, ih]
    · simp [wcAux, hd, ih, Nat.add_assoc]

theorem wcAux_piece (p : List Char) (b : Bool) (ys : List Char) :
    wcAux b ((p ++ ['\n', '\n']) ++ ys) = wcAux b p + wcAux false ys := by
  have h1 : (p ++ ['\n', '\n']) ++ ys = p ++ '\n' :: ('\n' :: ys) := by simp
  rw [h1, wcAux_sep '\n' (by decide), wcAux_ws_cons '\n' (by decide)]

theorem paraJoin_nil : paraJoin [] = [] := rfl

theorem paraJoin_cons (p : List Char) (ps : List (List Char)) :
    paraJoin (p :: ps) = (p ++ ['\n', '\n']) ++ paraJoin ps := by
  simp [paraJoin]

theorem paraJoin_append_one (ps : List (List Char)) (p : List Char) :
    paraJoin (ps ++ [p]) = paraJoin ps ++ (p ++ ['\n', '\n']) := by
  simp [paraJoin]

theorem paraJoin_single (p : List Char) : paraJoin [p] = p ++ ['\n', '\n'] := by
  simp [paraJoin]

theorem wcAux_paraJoin_append (ps : List (List Char)) (ys : List Char) :
    wcAux false (paraJoin ps ++ ys) = (ps.map wordsCount).sum + wcAux false ys := by
  induction ps with
  | nil => simp [paraJoin]
  | cons p ps ih =>
    rw [paraJoin_cons, List.append_assoc, wcAux_piece, ih]
    simp [wordsCount, Nat.add_assoc]

theorem wordsCount_paraJoin (ps : List (List Char)) :
    wordsCount (paraJoin ps) = (ps.map wordsCount).sum := by
  have h := wcAux_paraJoin_append ps []
  simpa [wordsCount, wcAux] using h

theorem estimate_tokens_paraJoin_single (p : List Char) :
    estimate_tokens (paraJoin [p]) = estimate_tokens p := by
  rw [estimate_tokens, wordsCount_paraJoin]
  simp [estimate_tokens]

/-- Floor truncation is superadditive: the estimate of joined pieces exceeds
the sum of the pieces' estimates by at most the number of pieces minus one. -/
theorem sum_div10_bound (ws : List Nat) (h : ws ≠ []) :
    13 * ws.sum / 10 + 1 ≤ (ws.map (fun w => 13 * w / 10)).sum + ws.length := by
  induction ws with
  | nil => exact absurd rfl h
  | cons w ws ih =>
    cases ws with
    | nil => simp
    | cons w2 ws2 =>
      have hne : w2 :: ws2 ≠ [] := by simp
      have h2 := ih hne
      have h3 : 13 * (w + (w2 :: ws2).sum) / 10
          ≤ 13 * w / 10 + 13 * (w2 :: ws2).sum / 10 + 1 := by
        omega
      simp only [List.sum_cons, List.map_cons, List.length_cons] at h2 h3 ⊢
      omega

/-! ## pyStrip lemmas -/

theorem takeWhile_all (p : Char → Bool) (l : List Char) : (l.takeWhile p).all p := by
  rw [List.all_eq_true]
  intro x hx
  exact List.mem_takeWhile_imp hx

theorem pyStrip_decomp (l : List Char) :
    ∃ u v, l = u ++ pyStrip l ++ v ∧ u.all isWs ∧ v.all isWs := by
  refine ⟨l.takeWhile isWs, ((l.dropWhile isWs).reverse.takeWhile isWs).reverse, ?_, ?_, ?_⟩
  · have h1 : l.dropWhile isWs
        = ((l.dropWhile isWs).reverse.dropWhile isWs).reverse
          ++ ((l.dropWhile isWs).reverse.takeWhile isWs).reverse := by
      conv_lhs => rw [← List.reverse_reverse (l.dropWhile isWs),
                      ← List.takeWhile_append_dropWhile isWs (l.dropWhile isWs).reverse,
                      List.reverse_append]
    conv_lhs => rw [← List.takeWhile_append_dropWhile isWs l, h1]
    simp [pyStrip, List.append_assoc]
  · exact takeWhile_all isWs l
  · rw [List.all_eq_true]
    intro x hx
    rw [List.mem_reverse] at hx
    exact List.mem_takeWhile_imp hx

theorem pyStrip_eq_nil_iff (l : List Char) : pyStrip l = [] ↔ l.all isWs := by
  constructor
  · intro h
    obtain ⟨u, v, hl, hu, hv⟩ := pyStrip_decomp l
    rw [h] at hl
    rw [hl]
    simp only [List.all_append, List.all_nil]
    simp [hu, hv]
  · intro h
    rw [List.all_eq_true] at h
    have h1 : l.dropWhile isWs = [] := List.dropWhile_eq_nil_iff.mpr h
    rw [pyStrip, h1]
    simp

theorem pyStrip_pyStrip_ne (l : List Char) (h : pyStrip l ≠ []) :
    pyStrip (pyStrip l) ≠ [] := by
  intro hc
  rw [pyStrip_eq_nil_iff] at hc
  apply h
  rw [pyStrip_eq_nil_iff]
  obtain ⟨u, v, hl, hu, hv⟩ := pyStrip_decomp l
  rw [hl]
  simp only [List.all_append]
  simp [hu, hv, hc]

theorem pyStrip_nil : pyStrip ([] : List Char) = [] := rfl

/-- Stripping ignores a trailing separator. -/
theorem pyStrip_append_nl2 (x : List Char) :
    pyStrip (x ++ ['\n', '\n']) = pyStrip x := by
  by_cases hx : (x.dropWhile isWs).isEmpty
  · have h1 : x.dropWhile isWs = [] := by
      cases h : x.dropWhile isWs
      · rfl
      · rw [h] at hx; simp at hx
    rw [pyStrip, pyStrip, List.dropWhile_append, h1]
    simp [List.dropWhile, isWs]
  · rw [pyStrip, pyStrip, List.dropWhile_append]
    rw [if_neg (by simp [hx])]
    rw [List.reverse_append]
    have : (['\n', '\n'] : List Char).reverse = ['\n', '\n'] := rfl
    rw [this]
    simp [List.dropWhile, isWs]

theorem pyStrip_paraJoin_single (p : List Char) :
    pyStrip (paraJoin [p]) = pyStrip p := by
  rw [paraJoin_single, pyStrip_append_nl2]

/-! ## The accumulator invariant -/

/-- Any chunk the accumulation loop emits satisfies `accumOk`, provided the
starting buffer is the join of pieces `ps` whose estimate sum is the starting
token count, and `ps` is within budget, empty, or a single piece (the three
shapes a buffer can ever have). -/
theorem accumLoop_ok (sp : ChunkSplitter) (heading : Option (List Char)) (kind : List Char) :
    ∀ (paras ps : List (List Char)) (ordc : Nat),
      (((ps.map estimate_tokens).sum : Int) ≤ sp.max_chunk_tokens ∨ ps = [] ∨ ∃ p, ps = [p]) →
      ∀ c ∈ (accumLoop sp heading kind paras (paraJoin ps)
              ((ps.map estimate_tokens).sum) ordc).1,
        accumOk sp c := by
  intro paras
  induction paras with
  | nil =>
    intro ps ordc hinv c hc
    simp only [accumLoop] at hc
    by_cases hg : pyStrip (paraJoin ps) ≠ []
    · rw [if_pos hg] at hc
      simp only [List.mem_singleton] at hc
      subst hc
      have hne : ps ≠ [] := by
        intro h
        subst h
        exact hg (by simp [paraJoin_nil, pyStrip_nil])
      refine ⟨ps, hne, rfl, hg, rfl, rfl, ?_⟩
      rcases hinv with hb | hb | ⟨p, hp⟩
      · exact Or.inl hb
      · exact absurd hb hne
      · subst hp
        by_cases hle : (estimate_tokens p : Int) ≤ sp.max_chunk_tokens
        · exact Or.inl (by simpa using hle)
        · exact Or.inr ⟨p, rfl, by omega⟩
    · rw [if_neg hg] at hc
      simp at hc
  | cons para rest ih =>
    intro ps ordc hinv c hc
    simp only [accumLoop] at hc
    by_cases hover :
        (((ps.map estimate_tokens).sum : Int) + (estimate_tokens para : Int)
          > sp.max_chunk_tokens)
    · rw [if_pos hover] at hc
      by_cases hg : pyStrip (paraJoin ps) ≠ []
      · rw [if_pos hg] at hc
        rcases List.mem_cons.mp hc with hh | ht
        · subst hh
          have hne : ps ≠ [] := by
            intro h
            subst h
            exact hg (by simp [paraJoin_nil, pyStrip_nil])
          refine ⟨ps, hne, rfl, hg, rfl, rfl, ?_⟩
          rcases hinv with hb | hb | ⟨p, hp⟩
          · exact Or.inl hb
          · exact absurd hb hne
          · subst hp
            by_cases hle : (estimate_tokens p : Int) ≤ sp.max_chunk_tokens
            · exact Or.inl (by simpa using hle)
            · exact Or.inr ⟨p, rfl, by omega⟩
        · exact ih [para] (ordc + 1) (Or.inr (Or.inr ⟨para, rfl⟩)) c
            (by simpa [paraJoin_single] using ht)
      · rw [if_neg hg] at hc
        exact ih [para] ordc (Or.inr (Or.inr ⟨para, rfl⟩)) c
          (by simpa [paraJoin_single] using hc)
    · rw [if_neg hover] at hc
      refine ih (ps ++ [para]) ordc (Or.inl ?_) c ?_
      · push_cast [List.map_append, List.sum_append]
        push_cast at hover
        simpa using Int.not_lt.mp hover
      · have hbuf : paraJoin ps ++ para ++ ['\n', '\n'] = paraJoin (ps ++ [para]) := by
          rw [paraJoin_append_one, List.append_assoc]
        have hsum : ((ps ++ [para]).map estimate_tokens).sum
            = (ps.map estimate_tokens).sum + estimate_tokens para := by
          simp [List.map_append, List.sum_append]
        rw [← hbuf, hsum]
        exact hc

/-- Every chunk `split_plaintext` produces satisfies `accumOk`. -/
theorem split_plaintext_ok (sp : ChunkSplitter) (text kind : List Char) :
    ∀ c ∈ split_plaintext sp text kind, accumOk sp c := by
  intro c hc
  have h := accumLoop_ok sp none kind (splitParas text) [] 0 (Or.inr (Or.inl rfl)) c
  apply h
  simpa [paraJoin_nil] using hc

theorem estimate_tokens_append_nl2 (x : List Char) :
    estimate_tokens (x ++ ['\n', '\n']) = estimate_tokens x := by
  have h := wcAux_piece x false []
  simp only [List.append_nil] at h
  simp [estimate_tokens, wordsCount, h, wcAux]

/-- Every chunk of the per-section loop is a within-budget section chunk or
an accumulator chunk. -/
theorem markdownSections_ok (sp : ChunkSplitter) :
    ∀ (secs : List (List Char × List Char × List Char)) (ordc : Nat),
      ∀ c ∈ markdownSections sp secs ordc, sectionChunkOk sp secs c ∨ accumOk sp c := by
  intro secs
  induction secs with
  | nil => intro ordc c hc; simp [markdownSections] at hc
  | cons sec rest ih =>
    intro ordc c hc
    obtain ⟨lvl, hd, rawContent⟩ := sec
    simp only [markdownSections] at hc
    by_cases hover :
        ((estimate_tokens (lvl ++ [' '] ++ hd ++ ['\n', '\n'] ++ pyStrip rawContent) : Int)
          > sp.max_chunk_tokens)
    · rw [if_pos hover] at hc
      rcases List.mem_append.mp hc with hl | hr
      · right
        have hseed : lvl ++ [' '] ++ hd ++ ['\n', '\n'] = paraJoin [lvl ++ [' '] ++ hd] := by
          rw [paraJoin_single]
        have hest : estimate_tokens (lvl ++ [' '] ++ hd ++ ['\n', '\n'])
            = ([lvl ++ [' '] ++ hd].map estimate_tokens).sum := by
          have h2 : lvl ++ [' '] ++ hd ++ ['\n', '\n'] = (lvl ++ [' '] ++ hd) ++ ['\n', '\n'] := by
            simp [List.append_assoc]
          rw [h2, estimate_tokens_append_nl2]
          simp
        refine accumLoop_ok sp (some hd) (str "doc") (splitParas (pyStrip rawContent))
          [lvl ++ [' '] ++ hd] ordc (Or.inr (Or.inr ⟨_, rfl⟩)) c ?_
        rw [← hseed, ← hest]
        exact hl
      · rcases ih _ c hr with hs | ha
        · left
          obtain ⟨s, hsmem, hrest⟩ := hs
          exact ⟨s, List.mem_cons_of_mem _ hsmem, hrest⟩
        · exact Or.inr ha
    · rw [if_neg hover] at hc
      rcases List.mem_cons.mp hc with hh | ht
      · left
        subst hh
        exact ⟨(lvl, hd, rawContent), List.mem_cons_self _ _,
          rfl, rfl, rfl, by simpa using Int.not_lt.mp hover⟩
      · rcases ih _ c ht with hs | ha
        · left
          obtain ⟨s, hsmem, hrest⟩ := hs
          exact ⟨s, List.mem_cons_of_mem _ hsmem, hrest⟩
        · exact Or.inr ha

/-- Every chunk of `split_markdown` is the prologue chunk, a within-budget
section chunk, or an accumulator chunk. -/
theorem split_markdown_ok (sp : ChunkSplitter) (md : List Char) :
    ∀ c ∈ split_markdown sp md,
      (c.text = pyStrip (headerSplit md).1 ∧ c.text ≠ []
          ∧ c.token_est = estimate_tokens c.text ∧ c.hash = some (compute_hash c.text))
        ∨ sectionChunkOk sp (headerSplit md).2 c ∨ accumOk sp c := by
  intro c hc
  rw [split_markdown, markdownFromSections] at hc
  by_cases hpre : pyStrip (headerSplit md).1 ≠ []
  · rw [if_pos hpre] at hc
    rcases List.mem_cons.mp hc with hh | ht
    · subst hh
      exact Or.inl ⟨rfl, hpre, rfl, rfl⟩
    · exact Or.inr (markdownSections_ok sp _ _ c ht)
  · rw [if_neg hpre] at hc
    exact Or.inr (markdownSections_ok sp _ _ c hc)

end RagSystem
namespace RagSystem

/-! ## Ord density lemmas -/

theorem accumLoop_ord (sp : ChunkSplitter) (heading : Option (List Char)) (kind : List Char) :
    ∀ (paras : List (List Char)) (buf : List Char) (tok ordc : Nat),
      (accumLoop sp heading kind paras buf tok ordc).2
          = ordc + (accumLoop sp heading kind paras buf tok ordc).1.length
        ∧ (accumLoop sp heading kind paras buf tok ordc).1.map Chunk.ord
          = List.range' ordc (accumLoop sp heading kind paras buf tok ordc).1.length := by
  intro paras
  induction paras with
  | nil =>
    intro buf tok ordc
    simp only [accumLoop]
    by_cases hg : pyStrip buf ≠ []
    · rw [if_pos hg]
      simp [List.range']
    · rw [if_neg hg]
      simp [List.range']
  | cons para rest ih =>
    intro buf tok ordc
    simp only [accumLoop]
    by_cases hover : ((tok : Int) + (estimate_tokens para : Int) > sp.max_chunk_tokens)
    · rw [if_pos hover]
      by_cases hg : pyStrip buf ≠ []
      · rw [if_pos hg]
        have h := ih (para ++ ['\n', '\n']) (estimate_tokens para) (ordc + 1)
        simp only [List.length_cons, List.map_cons]
        constructor
        · rw [h.1]
          omega
        · rw [h.2, List.range']
      · rw [if_neg hg]
        exact ih _ _ _
    · rw [if_neg hover]
      exact ih _ _ _

theorem split_plaintext_ord (sp : ChunkSplitter) (text kind : List Char) :
    (split_plaintext sp text kind).map Chunk.ord
      = List.range (split_plaintext sp text kind).length := by
  rw [List.range_eq_range']
  exact (accumLoop_ord sp none kind (splitParas text) [] 0 0).2

theorem markdownSections_ord (sp : ChunkSplitter) :
    ∀ (secs : List (List Char × List Char × List Char)) (ordc : Nat),
      (markdownSections sp secs ordc).map Chunk.ord
        = List.range' ordc (markdownSections sp secs ordc).length := by
  intro secs
  induction secs with
  | nil => intro ordc; simp [markdownSections, List.range']
  | cons sec rest ih =>
    intro ordc
    obtain ⟨lvl, hd, rawContent⟩ := sec
    simp only [markdownSections]
    by_cases hover :
        ((estimate_tokens (lvl ++ [' '] ++ hd ++ ['\n', '\n'] ++ pyStrip rawContent) : Int)
          > sp.max_chunk_tokens)
    · rw [if_pos hover]
      have ha := accumLoop_ord sp (some hd) (str "doc")
        (splitParas (pyStrip rawContent)) (lvl ++ [' '] ++ hd ++ ['\n', '\n'])
        (estimate_tokens (lvl ++ [' '] ++ hd ++ ['\n', '\n'])) ordc
      rw [List.map_append, ha.2, ih _, ha.1, List.length_append]
      have hr := List.range'_append ordc
        ((accumLoop sp (some hd) (str "doc") (splitParas (pyStrip rawContent))
          (lvl ++ [' '] ++ hd ++ ['\n', '\n'])
          (estimate_tokens (lvl ++ [' '] ++ hd ++ ['\n', '\n'])) ordc).1.length)
        ((markdownSections sp rest
          (ordc + (accumLoop sp (some hd) (str "doc") (splitParas (pyStrip rawContent))
            (lvl ++ [' '] ++ hd ++ ['\n', '\n'])
            (estimate_tokens (lvl ++ [' '] ++ hd ++ ['\n', '\n'])) ordc).1.length)).length) 1
      simp only [Nat.one_mul] at hr
      rw [hr, Nat.add_comm]
    · rw [if_neg hover]
      simp only [List.map_cons, List.length_cons]
      rw [ih _, List.range']

theorem split_markdown_ord (sp : ChunkSplitter) (md : List Char) :
    (split_markdown sp md).map Chunk.ord = List.range (split_markdown sp md).length := by
  rw [List.range_eq_range', split_markdown, markdownFromSections]
  by_cases hpre : pyStrip (headerSplit md).1 ≠ []
  · rw [if_pos hpre]
    simp only [List.map_cons, List.length_cons]
    rw [markdownSections_ord, List.range']
  · rw [if_neg hpre]
    exact markdownSections_ord sp _ 0

theorem splitMessagesLoop_ord (sp : ChunkSplitter) (session_id : Int) :
    ∀ (msgs : List Msg) (ordc : Nat),
      (splitMessagesLoop sp session_id msgs ordc).map Chunk.ord
        = List.range' ordc (splitMessagesLoop sp session_id msgs ordc).length := by
  intro msgs
  induction msgs with
  | nil => intro ordc; simp [splitMessagesLoop, List.range']
  | cons msg rest ih =>
    intro ordc
    simp only [splitMessagesLoop]
    by_cases hover : ((estimate_tokens msg.content : Int) > sp.max_chunk_tokens)
    · rw [if_pos hover]
      have hsub : ((split_plaintext sp msg.content
            (if msg.role = str "assistant" then str "ai" else str "note")).enum.map
            (fun ic => (⟨ic.2.heading, ic.2.text, ordc + ic.1, ic.2.kind, ic.2.token_est,
              ic.2.hash, some ⟨session_id, msg.step, msg.role, some ic.1⟩⟩ : Chunk))).map Chunk.ord
          = List.range' ordc (split_plaintext sp msg.content
              (if msg.role = str "assistant" then str "ai" else str "note")).length := by
        rw [List.map_map]
        have h1 : (Chunk.ord ∘ fun ic : Nat × Chunk =>
            (⟨ic.2.heading, ic.2.text, ordc + ic.1, ic.2.kind, ic.2.token_est,
              ic.2.hash, some ⟨session_id, msg.step, msg.role, some ic.1⟩⟩ : Chunk))
            = (fun x => ordc + x) ∘ Prod.fst := rfl
        rw [h1, ← List.map_map, List.enum_map_fst, ← List.range'_eq_map_range]
      rw [List.map_append, hsub, ih _]
      have hlen : ((split_plaintext sp msg.content
            (if msg.role = str "assistant" then str "ai" else str "note")).enum.map
            (fun ic => (⟨ic.2.heading, ic.2.text, ordc + ic.1, ic.2.kind, ic.2.token_est,
              ic.2.hash, some ⟨session_id, msg.step, msg.role, some ic.1⟩⟩ : Chunk))).length
          = (split_plaintext sp msg.content
              (if msg.role = str "assistant" then str "ai" else str "note")).length := by
        rw [List.length_map, List.enum_length]
      rw [List.length_append, hlen]
      have hr := List.range'_append ordc
        (split_plaintext sp msg.content
          (if msg.role = str "assistant" then str "ai" else str "note")).length
        ((splitMessagesLoop sp session_id rest
          (ordc + (split_plaintext sp msg.content
            (if msg.role = str "assistant" then str "ai" else str "note")).length)).length) 1
      simp only [Nat.one_mul] at hr
      rw [hr, Nat.add_comm]
    · rw [if_neg hover]
      simp only [List.map_cons, List.length_cons]
      rw [ih _, List.range']

theorem split_session_messages_ord (sp : ChunkSplitter) (session_id : Int) (msgs : List Msg) :
    (split_session_messages sp session_id msgs).map Chunk.ord
      = List.range (split_session_messages sp session_id msgs).length := by
  rw [List.range_eq_range']
  exact splitMessagesLoop_ord sp session_id msgs 0

end RagSystem
namespace RagSystem

/-! ## Message splitter characterization -/

/-- The message loop's output differs between starting counters only in the
`ord` fields: every other field matches the per-message runs concatenated. -/
theorem splitMessagesLoop_sansOrd (sp : ChunkSplitter) (sid : Int) :
    ∀ (msgs : List Msg) (ordc : Nat),
      (splitMessagesLoop sp sid msgs ordc).map chunkSansOrd
        = ((msgs.map (perMessageChunks sp sid)).flatten).map chunkSansOrd := by
  intro msgs
  induction msgs with
  | nil => intro ordc; simp [splitMessagesLoop]
  | cons msg rest ih =>
    intro ordc
    simp only [List.map_cons, List.flatten_cons, List.map_append, perMessageChunks]
    simp only [splitMessagesLoop]
    by_cases hover : ((estimate_tokens msg.content : Int) > sp.max_chunk_tokens)
    · rw [if_pos hover, if_pos hover]
      simp only [List.map_append, List.map_map, List.map_nil, List.append_nil]
      rw [ih _]
      rfl
    · rw [if_neg hover, if_neg hover]
      simp only [List.map_cons]
      rw [ih _]
      congr 1

/-- The `sub_chunk` metadata of one message's chunks: the zero-based indices
of the sub-chunks for an oversized message, a single `none` otherwise. -/
theorem perMessage_subchunks (sp : ChunkSplitter) (sid : Int) (m : Msg) :
    (perMessageChunks sp sid m).map (fun c => c.metadata.bind MsgMeta.sub_chunk)
      = if (estimate_tokens m.content : Int) > sp.max_chunk_tokens
        then (List.range (split_plaintext sp m.content
          (if m.role = str "assistant" then str "ai" else str "note")).length).map some
        else [none] := by
  rw [perMessageChunks]
  simp only [splitMessagesLoop]
  by_cases hover : ((estimate_tokens m.content : Int) > sp.max_chunk_tokens)
  · rw [if_pos hover, if_pos hover]
    simp only [splitMessagesLoop, List.append_nil, List.map_map]
    have h1 : ((fun c : Chunk => c.metadata.bind MsgMeta.sub_chunk) ∘ fun ic : Nat × Chunk =>
        (⟨ic.2.heading, ic.2.text, 0 + ic.1, ic.2.kind, ic.2.token_est,
          ic.2.hash, some ⟨sid, m.step, m.role, some ic.1⟩⟩ : Chunk))
        = (fun x => some x) ∘ Prod.fst := rfl
    rw [h1, ← List.map_map, List.enum_map_fst]
  · rw [if_neg hover, if_neg hover]
    simp [splitMessagesLoop, Option.bind]

/-! ## Dead-configuration lemmas -/

theorem accumLoop_cfg (sp1 sp2 : ChunkSplitter)
    (h : sp1.max_chunk_tokens = sp2.max_chunk_tokens)
    (heading : Option (List Char)) (kind : List Char) :
    ∀ (paras : List (List Char)) (buf : List Char) (tok ordc : Nat),
      accumLoop sp1 heading kind paras buf tok ordc
        = accumLoop sp2 heading kind paras buf tok ordc := by
  intro paras
  induction paras with
  | nil => intro buf tok ordc; simp [accumLoop]
  | cons para rest ih =>
    intro buf tok ordc
    simp only [accumLoop, h]
    split_ifs
    · rw [ih]
    · rw [ih]
    · rw [ih]

theorem split_plaintext_cfg (sp1 sp2 : ChunkSplitter)
    (h : sp1.max_chunk_tokens = sp2.max_chunk_tokens) (text kind : List Char) :
    split_plaintext sp1 text kind = split_plaintext sp2 text kind := by
  rw [split_plaintext, split_plaintext, accumLoop_cfg sp1 sp2 h]

theorem markdownSections_cfg (sp1 sp2 : ChunkSplitter)
    (h : sp1.max_chunk_tokens = sp2.max_chunk_tokens) :
    ∀ (secs : List (List Char × List Char × List Char)) (ordc : Nat),
      markdownSections sp1 secs ordc = markdownSections sp2 secs ordc := by
  intro secs
  induction secs with
  | nil => intro ordc; simp [markdownSections]
  | cons sec rest ih =>
    intro ordc
    obtain ⟨lvl, hd, rawContent⟩ := sec
    simp only [markdownSections, h]
    split_ifs
    · rw [accumLoop_cfg sp1 sp2 h, ih]
    · rw [ih]

theorem split_markdown_cfg (sp1 sp2 : ChunkSplitter)
    (h : sp1.max_chunk_tokens = sp2.max_chunk_tokens) (md : List Char) :
    split_markdown sp1 md = split_markdown sp2 md := by
  rw [split_markdown, split_markdown, markdownFromSections, markdownFromSections]
  split_ifs
  · rw [markdownSections_cfg sp1 sp2 h]
  · rw [markdownSections_cfg sp1 sp2 h]

theorem splitMessagesLoop_cfg (sp1 sp2 : ChunkSplitter)
    (h : sp1.max_chunk_tokens = sp2.max_chunk_tokens) (sid : Int) :
    ∀ (msgs : List Msg) (ordc : Nat),
      splitMessagesLoop sp1 sid msgs ordc = splitMessagesLoop sp2 sid msgs ordc := by
  intro msgs
  induction msgs with
  | nil => intro ordc; simp [splitMessagesLoop]
  | cons msg rest ih =>
    intro ordc
    simp only [splitMessagesLoop, h]
    split_ifs
    all_goals first
      | rw [split_plaintext_cfg sp1 sp2 h, ih]
      | rw [ih]

theorem split_session_messages_cfg (sp1 sp2 : ChunkSplitter)
    (h : sp1.max_chunk_tokens = sp2.max_chunk_tokens) (sid : Int) (msgs : List Msg) :
    split_session_messages sp1 sid msgs = split_session_messages sp2 sid msgs := by
  rw [split_session_messages, split_session_messages, splitMessagesLoop_cfg sp1 sp2 h]

/-! ## Context-budget lemmas -/

theorem buildLoop_greedy (mx : Int) :
    ∀ (rs : List RankedChunk) (total : Int),
      buildLoop mx rs total
        = (((greedyIncluded (mx - total) rs).map fmtBlock).flatten,
           (greedyIncluded (mx - total) rs).map mkSourceRec) := by
  intro rs
  induction rs with
  | nil => intro total; simp [buildLoop, greedyIncluded]
  | cons r rest ih =>
    intro total
    simp only [buildLoop, greedyIncluded]
    by_cases hgt : (total + (r.token_est.getD 0 : Nat) : Int) > mx
    · rw [if_pos hgt, if_neg (by omega)]
      simp
    · rw [if_neg hgt, if_pos (by omega), ih]
      have harg : mx - (total + (r.token_est.getD 0 : Nat)) = mx - total - (r.token_est.getD 0 : Nat) := by
        ring
      rw [harg]
      simp

theorem build_rag_context_greedy (mx : Int) (rs : List RankedChunk) :
    build_rag_context mx rs
      = (((greedyIncluded mx rs).map fmtBlock).flatten,
         (greedyIncluded mx rs).map mkSourceRec) := by
  rw [build_rag_context, buildLoop_greedy]
  simp

theorem greedyIncluded_take (mx : Int) :
    ∀ rs, greedyIncluded mx rs = rs.take (greedyIncluded mx rs).length := by
  intro rs
  induction rs generalizing mx with
  | nil => simp [greedyIncluded]
  | cons r rest ih =>
    simp only [greedyIncluded]
    by_cases hle : ((r.token_est.getD 0 : Nat) : Int) ≤ mx
    · rw [if_pos hle]
      simp only [List.length_cons, List.take_succ_cons]
      rw [← ih]
    · rw [if_neg hle]
      simp

theorem greedyIncluded_sum (mx : Int) :
    ∀ rs, greedyIncluded mx rs ≠ [] →
      (((greedyIncluded mx rs).map candTokens).sum : Int) ≤ mx := by
  intro rs
  induction rs generalizing mx with
  | nil => intro h; simp [greedyIncluded] at h
  | cons r rest ih =>
    intro h
    simp only [greedyIncluded] at h ⊢
    by_cases hle : ((r.token_est.getD 0 : Nat) : Int) ≤ mx
    · rw [if_pos hle] at h ⊢
      simp only [List.map_cons, List.sum_cons]
      by_cases hrest : greedyIncluded (mx - r.token_est.getD 0) rest = []
      · rw [hrest]
        simpa [candTokens] using hle
      · have h2 := ih (mx - (r.token_est.getD 0 : Nat)) hrest
        push_cast at h2 ⊢
        simp only [candTokens] at h2 ⊢
        omega
    · rw [if_neg hle] at h
      exact absurd rfl h

theorem greedyIncluded_longest (mx : Int) :
    ∀ (rs : List RankedChunk) (k : Nat), k ≤ rs.length →
      (((rs.take k).map candTokens).sum : Int) ≤ mx →
      k ≤ (greedyIncluded mx rs).length := by
  intro rs
  induction rs generalizing mx with
  | nil => intro k hk _; simpa [greedyIncluded] using hk
  | cons r rest ih =>
    intro k hk hsum
    cases k with
    | zero => exact Nat.zero_le _
    | succ j =>
      rw [List.take_succ_cons, List.map_cons, List.sum_cons, Nat.cast_add] at hsum
      have hct : ((r.token_est.getD 0 : Nat) : Int) ≤ mx := by
        simp only [candTokens] at hsum
        omega
      simp only [greedyIncluded, if_pos hct, List.length_cons]
      have hj := ih (mx - (r.token_est.getD 0 : Nat)) j (by simpa using hk)
        (by simp only [candTokens] at hsum ⊢; omega)
      omega

end RagSystem
namespace RagSystem

/-! ## Token-estimator specification equivalence -/

theorem estimate_tokens_eq_spec (l : List Char) : estimate_tokens l = estimateSpecRat l := by
  rw [estimateSpecRat, estimate_tokens]
  have h1 : (wordsCount l : ℚ) * 1.3 = ((13 * wordsCount l : ℕ) : ℚ) / ((10 : ℕ) : ℚ) := by
    push_cast
    norm_num
    ring
  rw [h1, Nat.floor_div_nat, Nat.floor_natCast]

/-! ## Header-level facts -/

theorem parseHeader_hash (line : List Char) (lh : List Char × List Char)
    (h : parseHeader line = some lh) : '#' ∈ lh.1 := by
  simp only [parseHeader] at h
  split at h
  · rename_i hlen
    have hmem : '#' ∈ line.takeWhile (· == '#') := by
      rcases hx : line.takeWhile (· == '#') with _ | ⟨a, t⟩
      · rw [hx] at hlen; simp at hlen
      · have ha : a ∈ line.takeWhile (· == '#') := by
          rw [hx]; exact List.mem_cons_self _ _
        have hb := List.mem_takeWhile_imp ha
        have ha2 : a = '#' := by simpa using hb
        subst ha2
        exact List.mem_cons_self _ _
    split at h
    · simp at h
    · split at h
      · split at h
        · cases h
          exact hmem
        · split at h
          · cases h
            exact hmem
          · simp at h
      · simp at h
  · simp at h

theorem sectionScanFuel_lvl : ∀ (n : Nat) (ls : List (List Char)),
    ∀ s ∈ sectionScanFuel n ls, '#' ∈ s.1 := by
  intro n
  induction n with
  | zero =>
    intro ls s hs
    cases ls with
    | nil => simp [sectionScanFuel] at hs
    | cons a b => simp [sectionScanFuel] at hs
  | succ n ih =>
    intro ls s hs
    cases ls with
    | nil => simp [sectionScanFuel] at hs
    | cons line rest =>
      rcases hph : parseHeader line with _ | lh
      · simp only [sectionScanFuel, hph] at hs
        exact ih _ s hs
      · simp only [sectionScanFuel, hph] at hs
        rcases List.mem_cons.mp hs with hh | ht
        · subst hh
          exact parseHeader_hash line lh hph
        · exact ih _ s ht

theorem sectionScan_lvl (ls : List (List Char)) : ∀ s ∈ sectionScan ls, '#' ∈ s.1 :=
  sectionScanFuel_lvl ls.length ls

/-- A list with a non-whitespace member does not trim to empty. -/
theorem pyStrip_ne_nil_of_mem (l : List Char) (c : Char) (hc : c ∈ l) (hw : isWs c = false) :
    pyStrip l ≠ [] := by
  intro h
  rw [pyStrip_eq_nil_iff, List.all_eq_true] at h
  simp [h c hc] at hw

end RagSystem
namespace RagSystem

theorem mem_enumFrom_snd {α : Type} : ∀ (l : List α) (n : Nat) (p : Nat × α),
    p ∈ List.enumFrom n l → p.2 ∈ l := by
  intro l
  induction l with
  | nil => intro n p hp; simp [List.enumFrom] at hp
  | cons a t ih =>
    intro n p hp
    rcases List.mem_cons.mp hp with hh | hht
    · rw [hh]
      exact List.mem_cons_self _ _
    · exact List.mem_cons_of_mem _ (ih (n + 1) p hht)

theorem mem_enum_snd {α : Type} (l : List α) (p : Nat × α) (hp : p ∈ l.enum) : p.2 ∈ l :=
  mem_enumFrom_snd l 0 p hp

/-- Every chunk the message loop emits is either a whole message (text and
hash taken verbatim from the message content) or an accumulator chunk coming
from `split_plaintext` on an oversized message. -/
theorem splitMessagesLoop_shape (sp : ChunkSplitter) (sid : Int) :
    ∀ (msgs : List Msg) (ordc : Nat), ∀ c ∈ splitMessagesLoop sp sid msgs ordc,
      (∃ m ∈ msgs, c.text = m.content ∧ c.hash = some (compute_hash m.content))
        ∨ accumOk sp c := by
  intro msgs
  induction msgs with
  | nil => intro ordc c hc; simp [splitMessagesLoop] at hc
  | cons msg rest ih =>
    intro ordc c hc
    simp only [splitMessagesLoop] at hc
    by_cases hover : ((estimate_tokens msg.content : Int) > sp.max_chunk_tokens)
    · rw [if_pos hover] at hc
      rcases List.mem_append.mp hc with hl | hr
      · right
        obtain ⟨ic, hic, hbuild⟩ := List.mem_map.mp hl
        have hsub : ic.2 ∈ split_plaintext sp msg.content
            (if msg.role = str "assistant" then str "ai" else str "note") :=
          mem_enum_snd _ ic hic
        have hok := split_plaintext_ok sp msg.content
          (if msg.role = str "assistant" then str "ai" else str "note") ic.2 hsub
        obtain ⟨qs, hqs, htext, htne, hest, hhash, hbud⟩ := hok
        subst hbuild
        exact ⟨qs, hqs, htext, htne, hest, hhash, hbud⟩
      · rcases ih _ c hr with ⟨m, hm, hrest⟩ | ha
        · exact Or.inl ⟨m, List.mem_cons_of_mem _ hm, hrest⟩
        · exact Or.inr ha
    · rw [if_neg hover] at hc
      rcases List.mem_cons.mp hc with hh | ht
      · subst hh
        exact Or.inl ⟨msg, List.mem_cons_self _ _, rfl, rfl⟩
      · rcases ih _ c ht with ⟨m, hm, hrest⟩ | ha
        · exact Or.inl ⟨m, List.mem_cons_of_mem _ hm, hrest⟩
        · exact Or.inr ha

/-- Upgrade the raw budget disjunction of a buffer to the `budgetOk` form:
the single-over-budget case keeps the piece whole (text and estimate taken
verbatim), and the within-budget case bounds the recorded estimate by the
budget plus the truncation slack of (pieces − 1). -/
theorem budget_enrich (sp : ChunkSplitter) (qs : List (List Char)) (c : Chunk)
    (hqs : qs ≠ []) (htext : c.text = pyStrip (paraJoin qs))
    (hest : c.token_est = estimate_tokens (paraJoin qs))
    (hbud : ((qs.map estimate_tokens).sum : Int) ≤ sp.max_chunk_tokens
      ∨ ∃ p, qs = [p] ∧ (estimate_tokens p : Int) > sp.max_chunk_tokens) :
    (∃ p, qs = [p] ∧ (estimate_tokens p : Int) > sp.max_chunk_tokens
        ∧ c.text = pyStrip p ∧ c.token_est = estimate_tokens p)
      ∨ (((qs.map estimate_tokens).sum : Int) ≤ sp.max_chunk_tokens
          ∧ (c.token_est : Int) ≤ sp.max_chunk_tokens + ((qs.length - 1 : Nat) : Int)) := by
  rcases hbud with hle | ⟨p, hp, hgt⟩
  · right
    refine ⟨hle, ?_⟩
    have hwords : estimate_tokens (paraJoin qs) = 13 * ((qs.map wordsCount).sum) / 10 := by
      rw [estimate_tokens, wordsCount_paraJoin]
    have hb := sum_div10_bound (qs.map wordsCount) (by simpa using hqs)
    have hmm : ((qs.map wordsCount).map (fun w => 13 * w / 10)).sum
        = (qs.map estimate_tokens).sum := by
      rw [List.map_map]
      rfl
    rw [hmm] at hb
    simp only [List.length_map] at hb
    have hlen : 1 ≤ qs.length := by
      cases qs with
      | nil => exact absurd rfl hqs
      | cons a t => simp
    rw [hest, hwords]
    omega
  · left
    subst hp
    exact ⟨p, rfl, hgt, by rw [htext, pyStrip_paraJoin_single],
      by rw [hest, estimate_tokens_paraJoin_single]⟩

/-- Strengthened accumulator invariant: every emitted chunk's pieces are a
contiguous run of the pieces fed to the loop — the current buffer's pieces
`ps` followed by the remaining paragraphs `paras` — and satisfy the budget
disjunction of `budgetOk`. -/
theorem accumLoop_src (sp : ChunkSplitter) (heading : Option (List Char)) (kind : List Char) :
    ∀ (paras ps : List (List Char)) (ordc : Nat),
      (((ps.map estimate_tokens).sum : Int) ≤ sp.max_chunk_tokens ∨ ps = [] ∨ ∃ p, ps = [p]) →
      ∀ c ∈ (accumLoop sp heading kind paras (paraJoin ps)
              ((ps.map estimate_tokens).sum) ordc).1,
        budgetOk sp (ps ++ paras) c := by
  intro paras
  induction paras with
  | nil =>
    intro ps ordc hinv c hc
    simp only [accumLoop] at hc
    by_cases hg : pyStrip (paraJoin ps) ≠ []
    · rw [if_pos hg] at hc
      simp only [List.mem_singleton] at hc
      subst hc
      have hne : ps ≠ [] := by
        intro h
        subst h
        exact hg (by simp [paraJoin_nil, pyStrip_nil])
      refine ⟨[], ps, [], by simp, hne, rfl, rfl,
        budget_enrich sp ps _ hne rfl rfl ?_⟩
      rcases hinv with hb | hb | ⟨p, hp⟩
      · exact Or.inl hb
      · exact absurd hb hne
      · subst hp
        by_cases hle : (estimate_tokens p : Int) ≤ sp.max_chunk_tokens
        · exact Or.inl (by simpa using hle)
        · exact Or.inr ⟨p, rfl, by omega⟩
    · rw [if_neg hg] at hc
      simp at hc
  | cons para rest ih =>
    intro ps ordc hinv c hc
    simp only [accumLoop] at hc
    by_cases hover :
        (((ps.map estimate_tokens).sum : Int) + (estimate_tokens para : Int)
          > sp.max_chunk_tokens)
    · rw [if_pos hover] at hc
      by_cases hg : pyStrip (paraJoin ps) ≠ []
      · rw [if_pos hg] at hc
        rcases List.mem_cons.mp hc with hh | ht
        · subst hh
          have hne : ps ≠ [] := by
            intro h
            subst h
            exact hg (by simp [paraJoin_nil, pyStrip_nil])
          refine ⟨[], ps, para :: rest, by simp, hne, rfl, rfl,
            budget_enrich sp ps _ hne rfl rfl ?_⟩
          rcases hinv with hb | hb | ⟨p, hp⟩
          · exact Or.inl hb
          · exact absurd hb hne
          · subst hp
            by_cases hle : (estimate_tokens p : Int) ≤ sp.max_chunk_tokens
            · exact Or.inl (by simpa using hle)
            · exact Or.inr ⟨p, rfl, by omega⟩
        · obtain ⟨pre, qs, suf, hsrc, hrest⟩ :=
            ih [para] (ordc + 1) (Or.inr (Or.inr ⟨para, rfl⟩)) c
              (by simpa [paraJoin_single] using ht)
          refine ⟨ps ++ pre, qs, suf, ?_, hrest⟩
          simp only [List.singleton_append] at hsrc
          rw [List.append_assoc, List.append_assoc, ← List.append_assoc pre qs suf, ← hsrc]
      · rw [if_neg hg] at hc
        obtain ⟨pre, qs, suf, hsrc, hrest⟩ :=
          ih [para] ordc (Or.inr (Or.inr ⟨para, rfl⟩)) c
            (by simpa [paraJoin_single] using hc)
        refine ⟨ps ++ pre, qs, suf, ?_, hrest⟩
        simp only [List.singleton_append] at hsrc
        rw [List.append_assoc, List.append_assoc, ← List.append_assoc pre qs suf, ← hsrc]
    · rw [if_neg hover] at hc
      have hres := ih (ps ++ [para]) ordc (Or.inl (by
          push_cast [List.map_append, List.sum_append]
          push_cast at hover
          simpa using Int.not_lt.mp hover)) c (by
        have hbuf : paraJoin ps ++ para ++ ['\n', '\n'] = paraJoin (ps ++ [para]) := by
          rw [paraJoin_append_one, List.append_assoc]
        have hsum : ((ps ++ [para]).map estimate_tokens).sum
            = (ps.map estimate_tokens).sum + estimate_tokens para := by
          simp [List.map_append, List.sum_append]
        rw [← hbuf, hsum]
        exact hc)
      have heq : (ps ++ [para]) ++ rest = ps ++ para :: rest := by
        simp
      rw [← heq]
      exact hres

/-- Every chunk of `split_plaintext` is the join of a contiguous run of the
source paragraphs, within budget in the `budgetOk` sense. -/
theorem split_plaintext_budget (sp : ChunkSplitter) (text kind : List Char) :
    ∀ c ∈ split_plaintext sp text kind, budgetOk sp (splitParas text) c := by
  intro c hc
  have h := accumLoop_src sp none kind (splitParas text) [] 0 (Or.inr (Or.inl rfl)) c
    (by simpa [paraJoin_nil] using hc)
  have heq : ([] : List (List Char)) ++ splitParas text = splitParas text := by simp
  rw [← heq]
  exact h

/-- Every chunk of the per-section loop is a within-budget section chunk or
an accumulator chunk whose pieces are a contiguous run of its own section's
pieces: the heading seed followed by the section's paragraphs. -/
theorem markdownSections_src (sp : ChunkSplitter) :
    ∀ (secs : List (List Char × List Char × List Char)) (ordc : Nat),
      ∀ c ∈ markdownSections sp secs ordc,
        sectionChunkOk sp secs c
        ∨ ∃ s ∈ secs,
            budgetOk sp ((s.1 ++ [' '] ++ s.2.1) :: splitParas (pyStrip s.2.2)) c := by
  intro secs
  induction secs with
  | nil => intro ordc c hc; simp [markdownSections] at hc
  | cons sec rest ih =>
    intro ordc c hc
    obtain ⟨lvl, hd, rawContent⟩ := sec
    simp only [markdownSections] at hc
    by_cases hover :
        ((estimate_tokens (lvl ++ [' '] ++ hd ++ ['\n', '\n'] ++ pyStrip rawContent) : Int)
          > sp.max_chunk_tokens)
    · rw [if_pos hover] at hc
      rcases List.mem_append.mp hc with hl | hr
      · right
        refine ⟨(lvl, hd, rawContent), List.mem_cons_self _ _, ?_⟩
        have hseed : lvl ++ [' '] ++ hd ++ ['\n', '\n'] = paraJoin [lvl ++ [' '] ++ hd] := by
          rw [paraJoin_single]
        have hest : estimate_tokens (lvl ++ [' '] ++ hd ++ ['\n', '\n'])
            = ([lvl ++ [' '] ++ hd].map estimate_tokens).sum := by
          rw [estimate_tokens_append_nl2]
          simp
        have h := accumLoop_src sp (some hd) (str "doc") (splitParas (pyStrip rawContent))
          [lvl ++ [' '] ++ hd] ordc (Or.inr (Or.inr ⟨_, rfl⟩)) c (by
            rw [← hseed, ← hest]
            exact hl)
        have heq : [lvl ++ [' '] ++ hd] ++ splitParas (pyStrip rawContent)
            = (lvl ++ [' '] ++ hd) :: splitParas (pyStrip rawContent) := by
          simp
        rw [← heq]
        exact h
      · rcases ih _ c hr with hs | ⟨s, hsmem, hres⟩
        · left
          obtain ⟨s, hsmem, hrest2⟩ := hs
          exact ⟨s, List.mem_cons_of_mem _ hsmem, hrest2⟩
        · exact Or.inr ⟨s, List.mem_cons_of_mem _ hsmem, hres⟩
    · rw [if_neg hover] at hc
      rcases List.mem_cons.mp hc with hh | ht
      · left
        subst hh
        exact ⟨(lvl, hd, rawContent), List.mem_cons_self _ _,
          rfl, rfl, rfl, by simpa using Int.not_lt.mp hover⟩
      · rcases ih _ c ht with hs | ⟨s, hsmem, hres⟩
        · left
          obtain ⟨s, hsmem, hrest2⟩ := hs
          exact ⟨s, List.mem_cons_of_mem _ hsmem, hrest2⟩
        · exact Or.inr ⟨s, List.mem_cons_of_mem _ hsmem, hres⟩

end RagSystem
namespace RagSystem

/-! ## Claims -/

/-- C1 counterexample: with budget 6, the two paragraphs of `exT1` (each
estimating 3 tokens, so both fit) are merged into one chunk whose recorded
`token_est` is 7 > 6 — an over-budget chunk whose source is not a single
over-budget paragraph, contradicting the stated budget-respect property. -/
theorem budget_respect_counterexample :
    (split_plaintext ⟨6, 50, 50⟩ exT1 (str "doc")).map (fun c => (c.text, c.token_est))
        = [(exT1, 7)]
    ∧ splitParas exT1 = [str "a b c", str "a b c"]
    ∧ estimate_tokens (str "a b c") = 3 :=
  ⟨by decide, by decide, by decide⟩

/-- C1 amended: every plaintext chunk is the blank-line join of a contiguous
run of the source paragraphs (`splitParas text = pre ++ qs ++ suf`); it is
either a single paragraph whose own estimate exceeds the budget (kept whole,
estimate recorded verbatim), or a group whose summed per-paragraph estimates
fit the budget — the recorded `token_est` on the joined text may exceed the
budget by at most (paragraphs − 1) through floor truncation.  For markdown,
a chunk is the (never budget-checked) prologue, a within-budget section
chunk, or an accumulator chunk whose pieces are a contiguous run of its own
section's pieces (the heading seed followed by that section's paragraphs). -/
theorem budget_respect_amended :
    (∀ (sp : ChunkSplitter) (text kind : List Char),
      ∀ c ∈ split_plaintext sp text kind, budgetOk sp (splitParas text) c)
    ∧ (∀ (sp : ChunkSplitter) (md : List Char), ∀ c ∈ split_markdown sp md,
        c.text = pyStrip (headerSplit md).1
        ∨ (c.token_est : Int) ≤ sp.max_chunk_tokens
        ∨ ∃ s ∈ (headerSplit md).2,
            budgetOk sp ((s.1 ++ [' '] ++ s.2.1) :: splitParas (pyStrip s.2.2)) c) := by
  constructor
  · exact split_plaintext_budget
  · intro sp md c hc
    rw [split_markdown, markdownFromSections] at hc
    by_cases hpre : pyStrip (headerSplit md).1 ≠ []
    · rw [if_pos hpre] at hc
      rcases List.mem_cons.mp hc with hh | ht
      · subst hh
        exact Or.inl rfl
      · rcases markdownSections_src sp _ _ c ht with hs | hacc
        · obtain ⟨s, _, _, _, _, hle⟩ := hs
          exact Or.inr (Or.inl hle)
        · exact Or.inr (Or.inr hacc)
    · rw [if_neg hpre] at hc
      rcases markdownSections_src sp _ _ c hc with hs | hacc
      · obtain ⟨s, _, _, _, _, hle⟩ := hs
        exact Or.inr (Or.inl hle)
      · exact Or.inr (Or.inr hacc)

set_option maxRecDepth 40000 in
/-- C1 witness: the amended claim instantiated on the concrete chunk of the
counterexample input. -/
theorem budget_respect_amended_witness :
    chunk0 (split_plaintext ⟨6, 50, 50⟩ exT1 (str "doc"))
        ∈ split_plaintext ⟨6, 50, 50⟩ exT1 (str "doc")
    ∧ budgetOk ⟨6, 50, 50⟩ (splitParas exT1)
        (chunk0 (split_plaintext ⟨6, 50, 50⟩ exT1 (str "doc"))) :=
  ⟨by decide, budget_respect_amended.1 ⟨6, 50, 50⟩ exT1 (str "doc") _ (by decide)⟩

set_option maxRecDepth 40000 in
/-- C2 counterexample: the accumulator hashes the un-trimmed buffer
(`"hello\n\n"`) but stores the trimmed text (`"hello"`), so `hash` is not the
SHA-256 of `text`; and the message splitter, hashing the raw content, gives
the same text `"hello"` a different hash — hash is not a pure function of
text across splitters. -/
theorem hash_of_text_counterexample :
    (chunk0 exPlainHello).text = str "hello"
    ∧ (chunk0 exPlainHello).hash ≠ some (compute_hash (chunk0 exPlainHello).text)
    ∧ (chunk0 exMsgHello).text = (chunk0 exPlainHello).text
    ∧ (chunk0 exMsgHello).hash ≠ (chunk0 exPlainHello).hash :=
  ⟨by decide, by decide, by decide, by decide⟩

/-- C2 amended: every chunk's hash is the SHA-256 hex digest of the UTF-8
encoding of its pre-trim source string: a string that either trims to the
chunk's text (accumulator chunks, which hash the buffer with its trailing
separators) or is the chunk's text itself (section, prologue and
whole-message chunks). -/
theorem hash_source_amended :
    (∀ (sp : ChunkSplitter) (text kind : List Char), ∀ c ∈ split_plaintext sp text kind,
      ∃ s, c.hash = some (compute_hash s) ∧ (c.text = pyStrip s ∨ c.text = s))
    ∧ (∀ (sp : ChunkSplitter) (md : List Char), ∀ c ∈ split_markdown sp md,
        ∃ s, c.hash = some (compute_hash s) ∧ (c.text = pyStrip s ∨ c.text = s))
    ∧ (∀ (sp : ChunkSplitter) (sid : Int) (msgs : List Msg),
        ∀ c ∈ split_session_messages sp sid msgs,
        ∃ s, c.hash = some (compute_hash s) ∧ (c.text = pyStrip s ∨ c.text = s)) := by
  refine ⟨?_, ?_, ?_⟩
  · intro sp text kind c hc
    obtain ⟨qs, _, htext, _, _, hhash, _⟩ := split_plaintext_ok sp text kind c hc
    exact ⟨paraJoin qs, hhash, Or.inl htext⟩
  · intro sp md c hc
    rcases split_markdown_ok sp md c hc with ⟨_, _, _, hhash⟩ | hsec | hacc
    · exact ⟨c.text, hhash, Or.inr rfl⟩
    · obtain ⟨s, _, _, _, hhash, _⟩ := hsec
      exact ⟨c.text, hhash, Or.inr rfl⟩
    · obtain ⟨qs, _, htext, _, _, hhash, _⟩ := hacc
      exact ⟨paraJoin qs, hhash, Or.inl htext⟩
  · intro sp sid msgs c hc
    rcases splitMessagesLoop_shape sp sid msgs 0 c hc with ⟨m, _, htext, hhash⟩ | hacc
    · exact ⟨m.content, hhash, Or.inr htext⟩
    · obtain ⟨qs, _, htext, _, _, hhash, _⟩ := hacc
      exact ⟨paraJoin qs, hhash, Or.inl htext⟩

set_option maxRecDepth 40000 in
/-- C2 witness: the amended claim instantiated on a concrete plaintext chunk. -/
theorem hash_source_amended_witness :
    chunk0 (split_plaintext defaultSplitter (str "x y z") (str "note"))
        ∈ split_plaintext defaultSplitter (str "x y z") (str "note")
    ∧ ∃ s, (chunk0 (split_plaintext defaultSplitter (str "x y z") (str "note"))).hash
          = some (compute_hash s)
        ∧ ((chunk0 (split_plaintext defaultSplitter (str "x y z") (str "note"))).text
              = pyStrip s
          ∨ (chunk0 (split_plaintext defaultSplitter (str "x y z") (str "note"))).text = s) :=
  ⟨by decide, hash_source_amended.1 defaultSplitter (str "x y z") (str "note") _ (by decide)⟩

/-- C3: for each splitter, the `ord` fields of a single invocation's output
are exactly 0, 1, …, N−1 in list order. -/
theorem ord_density :
    ∀ (sp : ChunkSplitter) (md text kind : List Char) (sid : Int) (msgs : List Msg),
      (split_markdown sp md).map Chunk.ord = List.range (split_markdown sp md).length
      ∧ (split_plaintext sp text kind).map Chunk.ord
          = List.range (split_plaintext sp text kind).length
      ∧ (split_session_messages sp sid msgs).map Chunk.ord
          = List.range (split_session_messages sp sid msgs).length :=
  fun sp md text kind sid msgs =>
    ⟨split_markdown_ord sp md, split_plaintext_ord sp text kind,
     split_session_messages_ord sp sid msgs⟩

/-- C4: `build_rag_context` includes exactly the greedy budget prefix of the
candidates (context = concatenation of whole formatted blocks, provenance
parallel to it), that prefix is a prefix of the input, its total cost fits
the budget, no longer prefix fits, a first candidate alone over budget gives
empty output, and on estimates [100, 150, 300] with budget 300 exactly the
first two candidates are included. -/
theorem context_budget_greedy :
    (∀ (mx : Int) (rs : List RankedChunk),
      build_rag_context mx rs
          = (((greedyIncluded mx rs).map fmtBlock).flatten,
             (greedyIncluded mx rs).map mkSourceRec)
        ∧ greedyIncluded mx rs = rs.take (greedyIncluded mx rs).length
        ∧ (greedyIncluded mx rs ≠ [] →
            (((greedyIncluded mx rs).map candTokens).sum : Int) ≤ mx)
        ∧ (∀ k, k ≤ rs.length → (((rs.take k).map candTokens).sum : Int) ≤ mx →
            k ≤ (greedyIncluded mx rs).length)
        ∧ (∀ r rest, rs = r :: rest → (candTokens r : Int) > mx →
            build_rag_context mx rs = ([], [])))
    ∧ (build_rag_context 300 exCands).1
        = fmtBlock (exCand 1 100) ++ fmtBlock (exCand 2 150)
    ∧ (build_rag_context 300 exCands).2
        = [mkSourceRec (exCand 1 100), mkSourceRec (exCand 2 150)] := by
  refine ⟨?_, by decide, by decide⟩
  intro mx rs
  refine ⟨build_rag_context_greedy mx rs, greedyIncluded_take mx rs,
    greedyIncluded_sum mx rs, greedyIncluded_longest mx rs, ?_⟩
  intro r rest hrs hgt
  subst hrs
  rw [build_rag_context_greedy]
  simp only [greedyIncluded]
  rw [if_neg (by simp only [candTokens] at hgt; omega)]
  rfl

/-- C4 witness: the greedy prefix on the concrete candidates is non-empty and
its total cost fits the budget. -/
theorem context_budget_greedy_witness :
    greedyIncluded 300 exCands ≠ []
    ∧ (((greedyIncluded 300 exCands).map candTokens).sum : Int) ≤ 300 :=
  ⟨by decide, (context_budget_greedy.1 300 exCands).2.2.1 (by decide)⟩

/-- C5: the message splitter only renumbers the concatenation of the
per-message chunk runs (one `ord` counter threaded over the whole sequence,
never reset: all fields except `ord` match the runs, and the `ord` fields are
dense 0..N−1); within one message, sub-chunks of an oversized message carry
`metadata.sub_chunk` 0, 1, … and a within-budget message carries none.  On
the concrete three-message scenario the ords are 0,1,2,3 with `sub_chunk`
0 and 1 on message 2's sub-chunks. -/
theorem message_ordering_continuity :
    (∀ (sp : ChunkSplitter) (sid : Int) (msgs : List Msg),
      (split_session_messages sp sid msgs).map chunkSansOrd
          = ((msgs.map (perMessageChunks sp sid)).flatten).map chunkSansOrd
        ∧ (split_session_messages sp sid msgs).map Chunk.ord
            = List.range (split_session_messages sp sid msgs).length
        ∧ ∀ m : Msg,
            (perMessageChunks sp sid m).map (fun c => c.metadata.bind MsgMeta.sub_chunk)
              = if (estimate_tokens m.content : Int) > sp.max_chunk_tokens
                then (List.range (split_plaintext sp m.content
                  (if m.role = str "assistant" then str "ai" else str "note")).length).map some
                else [none])
    ∧ (split_session_messages ⟨5, 50, 50⟩ 9 exMsgs).map
          (fun c => (c.ord, c.metadata.bind MsgMeta.sub_chunk))
        = [(0, none), (1, some 0), (2, some 1), (3, none)] := by
  refine ⟨?_, by decide⟩
  intro sp sid msgs
  exact ⟨splitMessagesLoop_sansOrd sp sid msgs 0,
    split_session_messages_ord sp sid msgs,
    perMessage_subchunks sp sid⟩

/-- C6: the token estimator equals the word count multiplied by the rational
1.3 and truncated (it is a pure total function of the text by construction),
and the empty text estimates to 0. -/
theorem token_estimator_spec :
    (∀ l : List Char, estimate_tokens l = estimateSpecRat l)
    ∧ estimate_tokens (str "") = 0 :=
  ⟨estimate_tokens_eq_spec, by decide⟩

/-- C7 counterexample: a message with empty content is not dropped — the
message splitter emits it as a chunk whose text is empty after trimming. -/
theorem nonempty_text_counterexample :
    (split_session_messages defaultSplitter 9 [⟨1, str "user", str ""⟩]).map
        (fun c => pyStrip c.text)
      = [[]] := by decide

/-- C7 amended: the plaintext and markdown splitters never emit a chunk whose
trimmed text is empty; the message splitter copies a within-budget message's
content verbatim into the chunk text, so an empty or whitespace-only message
is emitted rather than dropped (all other message-derived chunks have
non-empty trimmed text). -/
theorem nonempty_text_amended :
    (∀ (sp : ChunkSplitter) (text kind : List Char),
      ∀ c ∈ split_plaintext sp text kind, pyStrip c.text ≠ [])
    ∧ (∀ (sp : ChunkSplitter) (md : List Char),
        ∀ c ∈ split_markdown sp md, pyStrip c.text ≠ [])
    ∧ (∀ (sp : ChunkSplitter) (sid : Int) (msgs : List Msg),
        ∀ c ∈ split_session_messages sp sid msgs,
        pyStrip c.text ≠ [] ∨ ∃ m ∈ msgs, c.text = m.content) := by
  refine ⟨?_, ?_, ?_⟩
  · intro sp text kind c hc
    obtain ⟨qs, _, htext, htne, _, _, _⟩ := split_plaintext_ok sp text kind c hc
    rw [htext] at htne ⊢
    exact pyStrip_pyStrip_ne _ htne
  · intro sp md c hc
    rcases split_markdown_ok sp md c hc with ⟨htext, htne, _, _⟩ | hsec | hacc
    · rw [htext] at htne ⊢
      exact pyStrip_pyStrip_ne _ htne
    · obtain ⟨s, hsmem, htext, _, _, _⟩ := hsec
      have hlvl : '#' ∈ s.1 := by
        apply sectionScan_lvl _ s
        simpa [headerSplit] using hsmem
      have hmem : '#' ∈ c.text := by
        rw [htext]
        simp only [List.mem_append]
        exact Or.inl (Or.inl (Or.inl (Or.inl hlvl)))
      exact pyStrip_ne_nil_of_mem c.text '#' hmem (by decide)
    · obtain ⟨qs, _, htext, htne, _, _, _⟩ := hacc
      rw [htext] at htne ⊢
      exact pyStrip_pyStrip_ne _ htne
  · intro sp sid msgs c hc
    rcases splitMessagesLoop_shape sp sid msgs 0 c hc with ⟨m, hm, htext, _⟩ | hacc
    · exact Or.inr ⟨m, hm, htext⟩
    · obtain ⟨qs, _, htext, htne, _, _, _⟩ := hacc
      left
      rw [htext] at htne ⊢
      exact pyStrip_pyStrip_ne _ htne

set_option maxRecDepth 40000 in
/-- C7 witness: the amended claim instantiated on a concrete plaintext chunk. -/
theorem nonempty_text_amended_witness :
    chunk0 (split_plaintext defaultSplitter (str "w1 w2") (str "doc"))
        ∈ split_plaintext defaultSplitter (str "w1 w2") (str "doc")
    ∧ pyStrip (chunk0 (split_plaintext defaultSplitter (str "w1 w2") (str "doc"))).text ≠ [] :=
  ⟨by decide, nonempty_text_amended.1 defaultSplitter (str "w1 w2") (str "doc") _ (by decide)⟩

/-- C8 counterexample: constructing a splitter with `max_chunk_tokens = 0`
(non-positive) succeeds — the values are stored unchanged — and splitting
proceeds to produce a chunk instead of failing with a validation error. -/
theorem fail_fast_counterexample :
    mkChunkSplitter 0 50 50 = (⟨0, 50, 50⟩ : ChunkSplitter)
    ∧ (split_plaintext (mkChunkSplitter 0 50 50) (str "hello world") (str "doc")).map
        Chunk.text = [str "hello world"] :=
  ⟨rfl, by decide⟩

/-- C8 amended: the constructor performs no validation — any argument values,
including non-positive `max_chunk_tokens`, are stored unchanged and splitting
proceeds to produce chunks with them. -/
theorem no_validation_amended :
    (∀ mx mn ov : Int, mkChunkSplitter mx mn ov = ⟨mx, mn, ov⟩)
    ∧ (split_plaintext (mkChunkSplitter 0 50 50) (str "hello world") (str "doc")).length = 1
    ∧ (split_plaintext (mkChunkSplitter (-7) 50 50) (str "a b\n\nc d") (str "doc")).length
        = 2 :=
  ⟨fun _ _ _ => rfl, by decide, by decide⟩

/-- C9 counterexample: with budget 5, the section `"## H"` whose single
paragraph alone overflows produces a first chunk whose text is exactly the
trimmed heading prefix — a seed-only flush the claim says cannot happen. -/
theorem seed_flush_counterexample :
    (split_markdown ⟨5, 50, 50⟩ exMd9).map Chunk.text
        = [str "## H", str "w1 w2 w3 w4 w5 w6 w7 w8 w9 w10"]
    ∧ (split_markdown ⟨5, 50, 50⟩ exMd9).map Chunk.heading
        = [some (str "H"), some (str "H")] :=
  ⟨by decide, by decide⟩

/-- C9 amended: the accumulation pass flushes on overflow whenever the buffer
trims non-empty — including the seed-only buffer: whenever the seed plus the
first paragraph exceed the budget and the seed trims non-empty, the first
emitted chunk's text is exactly the trimmed seed (the heading prefix). -/
theorem seed_flush_amended :
    ∀ (sp : ChunkSplitter) (heading : Option (List Char)) (kind : List Char)
      (p0 : List Char) (paras : List (List Char)) (seed : List Char) (st ordc : Nat),
      ((st : Int) + (estimate_tokens p0 : Int) > sp.max_chunk_tokens) →
      pyStrip seed ≠ [] →
      ∃ rest2 : List Chunk × Nat,
        accumLoop sp heading kind (p0 :: paras) seed st ordc
          = (⟨heading, pyStrip seed, ordc, kind, estimate_tokens seed,
              some (compute_hash seed), none⟩ :: rest2.1, rest2.2) := by
  intro sp heading kind p0 paras seed st ordc hover hne
  refine ⟨accumLoop sp heading kind paras (p0 ++ ['\n', '\n'])
    (estimate_tokens p0) (ordc + 1), ?_⟩
  simp only [accumLoop]
  rw [if_pos hover, if_pos hne]

set_option maxRecDepth 40000 in
/-- C9 witness: the amended claim instantiated on the concrete seed and
paragraph of the counterexample section. -/
theorem seed_flush_amended_witness :
    (((2 : Nat) : Int) + (estimate_tokens (str "w1 w2 w3 w4 w5 w6 w7 w8 w9 w10") : Int)
        > (5 : Int))
    ∧ pyStrip (str "## H\n\n") ≠ []
    ∧ ∃ rest2 : List Chunk × Nat,
        accumLoop ⟨5, 50, 50⟩ (some (str "H")) (str "doc")
            [str "w1 w2 w3 w4 w5 w6 w7 w8 w9 w10"] (str "## H\n\n") 2 0
          = (⟨some (str "H"), pyStrip (str "## H\n\n"), 0, str "doc",
              estimate_tokens (str "## H\n\n"), some (compute_hash (str "## H\n\n")),
              none⟩ :: rest2.1, rest2.2) :=
  ⟨by decide, by decide,
    seed_flush_amended ⟨5, 50, 50⟩ (some (str "H")) (str "doc") _ _ _ 2 0
      (by decide) (by decide)⟩

/-- C10: two configurations that agree on `max_chunk_tokens` produce
identical chunk lists from all three splitters, whatever their
`min_chunk_tokens` and `overlap_tokens` — the two knobs are stored but never
applied. -/
theorem dead_config_noninterference :
    ∀ (sp1 sp2 : ChunkSplitter), sp1.max_chunk_tokens = sp2.max_chunk_tokens →
      (∀ text kind, split_plaintext sp1 text kind = split_plaintext sp2 text kind)
      ∧ (∀ md, split_markdown sp1 md = split_markdown sp2 md)
      ∧ (∀ sid msgs, split_session_messages sp1 sid msgs
            = split_session_messages sp2 sid msgs) :=
  fun sp1 sp2 h =>
    ⟨fun text kind => split_plaintext_cfg sp1 sp2 h text kind,
     fun md => split_markdown_cfg sp1 sp2 h md,
     fun sid msgs => split_session_messages_cfg sp1 sp2 h sid msgs⟩

/-- C10 witness: two configurations differing in both dead knobs agree on a
concrete split. -/
theorem dead_config_noninterference_witness :
    (⟨500, 0, 999⟩ : ChunkSplitter).max_chunk_tokens
        = (⟨500, 50, 50⟩ : ChunkSplitter).max_chunk_tokens
    ∧ split_plaintext ⟨500, 0, 999⟩ (str "hello") (str "doc")
        = split_plaintext ⟨500, 50, 50⟩ (str "hello") (str "doc") :=
  ⟨rfl, (dead_config_noninterference ⟨500, 0, 999⟩ ⟨500, 50, 50⟩ rfl).1
    (str "hello") (str "doc")⟩

end RagSystem
